import Mathlib

/-!
Shallow embedding of `preamble_finder.py`: a bit-stream preamble scanner and
header/payload decoder for a raw binary capture.  Bytes are modelled as `Nat`
(the Python code reads a `bytes` object, so every element is `< 256`), the bit
stream as a `List Bool` (most significant bit first), and Python byte/bit
positions — which can be negative through floor division — as `Int`.
-/

/-- Python `format(b, "08b")` for a byte value: the 8 bits of `b`, most
significant bit first. -/
def bitsOfByte (b : Nat) : List Bool :=
  [b.testBit 7, b.testBit 6, b.testBit 5, b.testBit 4,
   b.testBit 3, b.testBit 2, b.testBit 1, b.testBit 0]

/-- Value of a bit string read most-significant-bit first, `int(s, 2)`. -/
def bitsToNat (l : List Bool) : Nat :=
  l.foldl (fun acc bit => 2 * acc + (if bit then 1 else 0)) 0

/-- Reverse the bits in a byte: `int(format(byte, "08b")[::-1], 2)`. -/
def reverse_bits (b : Nat) : Nat := bitsToNat (bitsOfByte b).reverse

/-- The four candidate transforms of `reverse_32bit_word`:
`[original, bytes reversed, bits reversed, both reversed]`. -/
def reverse_32bit_word (word_bytes : List Nat) : List (List Nat) :=
  [word_bytes, word_bytes.reverse, word_bytes.map reverse_bits,
   word_bytes.reverse.map reverse_bits]

/-- The bit stream of the file, `"".join(format(b, "08b") for b in data)`. -/
def bitStream (data : List Nat) : List Bool := (data.map bitsOfByte).flatten

/-- The searched pattern `"00011110011010100010110001001000"` (0x1E6A2C48). -/
def preamble_bits : List Bool :=
  [false, false, false, true, true, true, true, false,
   false, true, true, false, true, false, true, false,
   false, false, true, false, true, true, false, false,
   false, true, false, false, true, false, false, false]

/-- Success of `stream.find` at `p`: it holds exactly when the pattern occurs
at `p`: the next `pat.length` bits of `s` from `p` are `pat`. -/
def matchAt (s pat : List Bool) (p : Nat) : Bool :=
  (s.drop p).take pat.length == pat

/-- All positions where `pat` occurs in `s`, in increasing order: the
`while True: pos = stream.find(...); pos += 1` loop enumerates exactly
these. -/
def occList (s pat : List Bool) : List Nat :=
  (List.range s.length).filter (fun p => matchAt s pat p)

/-- The `(byte_pos, bit_offset)` pair recorded for a match at bit position
`p` of the original stream: Python floor division and modulus, so a match at
position `0` of the offset stream (`p = -1`) gives `(-1, 7)`. -/
def pairOf (p : Int) : Int × Int := (p.fdiv 8, p.fmod 8)

/-- One scan of a stream: fold over the match positions (expressed in
original-stream bit coordinates), skipping a pair already recorded. -/
def scanPass (acc : List (Int × Int)) (ps : List Int) : List (Int × Int) :=
  ps.foldl (fun acc p => if pairOf p ∈ acc then acc else acc ++ [pairOf p]) acc

/-- The list `found_positions` after both scans: the normal stream contributes its
match positions `p`, the `"0" + bit_stream` stream contributes `q - 1` for
its match positions `q`. -/
def found_positions (data : List Nat) : List (Int × Int) :=
  scanPass
    (scanPass [] ((occList (bitStream data) preamble_bits).map Int.ofNat))
    ((occList (false :: bitStream data) preamble_bits).map (fun q => Int.ofNat q - 1))

/-- Python slice `data[start : start + len]` for a nonnegative start. -/
def pySlice (data : List Nat) (start len : Nat) : List Nat := (data.drop start).take len

/-- Little-endian word value, `int.from_bytes(word_bytes, "little")`. -/
def wordLE (word : List Nat) : Nat := word.foldr (fun b acc => b + 256 * acc) 0

/-- The dict entry `values[header_fields[idx]]` when defined: the `idx`-th little-endian
word of the bit-reversed 48-byte header that follows the preamble recorded
at byte position `byte_pos` (`header_start = byte_pos + 4`).  `none` when the
word is not fully present, i.e. when the key is absent from the dict. -/
def fieldValue (data : List Nat) (byte_pos : Int) (idx : Nat) : Option Nat :=
  let header_data := pySlice data (byte_pos + 4).toNat 48
  let header_reversed := header_data.map reverse_bits
  let word_bytes := (header_reversed.drop (4 * idx)).take 4
  if word_bytes.length = 4 then some (wordLE word_bytes) else none

/-- The loop body past the header parse, for the occurrence recorded at
`x = (byte_pos, bit_offset)`: `none` when `pixel_data = data[byte_pos + 52 :
byte_pos + 564]` is empty (the occurrence is skipped), otherwise the pair of
`values` lookup of `frame_num` (`none` modelling a `KeyError`) and
`min(pixel_data)`. -/
def contribAt (data : List Nat) (x : Int × Int) : Option (Option Nat × Nat) :=
  match pySlice data (x.1 + 52).toNat 512 with
  | [] => none
  | h :: t => some (fieldValue data x.1 1, t.foldl Nat.min h)

/-- The per-occurrence `(frame_num, min_pixel)` records appended to
`frame_pixels`, in recording order. -/
def contribs (data : List Nat) : List (Option Nat × Nat) :=
  (found_positions data).filterMap (contribAt data)

/-- Minimum of a possibly-empty list (`none` on `[]`, matching Python `min`
raising on an empty sequence). -/
def minOpt : List Nat → Option Nat
  | [] => none
  | h :: t => some (t.foldl Nat.min h)

/-- Combine the minima of two lists into the minimum of their
concatenation. -/
def combineMin : Option Nat → Option Nat → Option Nat
  | none, b => b
  | some a, none => some a
  | some a, some b => some (Nat.min a b)

/-- The entry `frame_mins[f] = min(frame_pixels[f])` when `f` is a key, `none`
otherwise. -/
def frameMin (data : List Nat) (f : Nat) : Option Nat :=
  minOpt ((contribs data).filterMap (fun c => if c.1 = some f then some c.2 else none))

/-- Spec-side definition, following the words of the claim: the union
(concatenation) of the payload slices `data[b+52 : b+564]` over the detected
preamble occurrences whose decoded `frame_num` equals `f` and whose payload
slice is non-empty. -/
def specFramePixelUnion (data : List Nat) (f : Nat) : List Nat :=
  (found_positions data).flatMap (fun x =>
    let px := pySlice data (x.1 + 52).toNat 512
    if fieldValue data x.1 1 = some f ∧ px ≠ [] then px else [])

/-- The distinct keys of `frame_pixels` (decoded frame numbers of
occurrences with non-empty payload); only their set matters, the list is
sorted next. -/
def frameKeys (data : List Nat) : List Nat :=
  ((contribs data).filterMap (fun c => c.1)).dedup

/-- The sorted frame list, `frames = sorted(frame_mins.keys())`. -/
def frames (data : List Nat) : List Nat :=
  List.insertionSort (· ≤ ·) (frameKeys data)

/-- The pairs `(frame, frame_mins[frame])` handed to `plt.plot`; `frameMin`
is `some` on every element of `frames`, so `getD` never takes its
default. -/
def plotPairs (data : List Nat) : List (Nat × Nat) :=
  (frames data).map (fun f => (f, (frameMin data f).getD 0))

/-- The gap loop over consecutive sorted frame numbers: record
`(frames[i], frames[i+1], diff)` whenever `diff > 1`. -/
def gapsOf (fs : List Nat) : List (Nat × Nat × Int) :=
  (fs.zip fs.tail).filterMap (fun x =>
    let d : Int := (x.2 : Int) - (x.1 : Int)
    if 1 < d then some (x.1, x.2, d) else none)

/-! Helper lemmas about the scanner. -/

theorem preamble_bits_length : preamble_bits.length = 32 := rfl

theorem pairOf_inj {p q : Int} (h : pairOf p = pairOf q) : p = q := by
  have h1 : p.fdiv 8 = q.fdiv 8 := congrArg Prod.fst h
  have h2 : p.fmod 8 = q.fmod 8 := congrArg Prod.snd h
  have hp := Int.fmod_add_fdiv p 8
  have hq := Int.fmod_add_fdiv q 8
  omega

theorem matchAt_bound {s pat : List Bool} {p : Nat} (hp : 0 < pat.length)
    (h : matchAt s pat p = true) : p + pat.length ≤ s.length := by
  have h' : (s.drop p).take pat.length = pat := by simpa [matchAt] using h
  have hl := congrArg List.length h'
  simp only [List.length_take, List.length_drop] at hl
  have := min_eq_left_iff.mp hl
  omega

theorem mem_occList {s pat : List Bool} {p : Nat} :
    p ∈ occList s pat ↔ matchAt s pat p = true ∧ p < s.length := by
  simp [occList, List.mem_filter, List.mem_range, and_comm]

theorem matchAt_cons (b : Bool) (s pat : List Bool) (q : Nat) :
    matchAt (b :: s) pat (q + 1) = matchAt s pat q := rfl

theorem scanPass_nil (acc : List (Int × Int)) : scanPass acc [] = acc := rfl

theorem scanPass_cons (acc : List (Int × Int)) (p : Int) (t : List Int) :
    scanPass acc (p :: t) =
      scanPass (if pairOf p ∈ acc then acc else acc ++ [pairOf p]) t := rfl

theorem mem_scanPass {ps : List Int} {acc : List (Int × Int)} {x : Int × Int} :
    x ∈ scanPass acc ps ↔ x ∈ acc ∨ ∃ p ∈ ps, pairOf p = x := by
  induction ps generalizing acc with
  | nil => simp [scanPass_nil]
  | cons p t ih =>
    rw [scanPass_cons]
    by_cases hmem : pairOf p ∈ acc
    · rw [if_pos hmem, ih]
      constructor
      · rintro (h | ⟨q, hq, rfl⟩)
        · exact Or.inl h
        · exact Or.inr ⟨q, List.mem_cons_of_mem _ hq, rfl⟩
      · rintro (h | ⟨q, hq, rfl⟩)
        · exact Or.inl h
        · rcases List.mem_cons.mp hq with rfl | hq
          · exact Or.inl hmem
          · exact Or.inr ⟨q, hq, rfl⟩
    · rw [if_neg hmem, ih]
      constructor
      · rintro (h | ⟨q, hq, rfl⟩)
        · rcases List.mem_append.mp h with h | h
          · exact Or.inl h
          · exact Or.inr ⟨p, List.mem_cons_self p t, (List.mem_singleton.mp h).symm⟩
        · exact Or.inr ⟨q, List.mem_cons_of_mem _ hq, rfl⟩
      · rintro (h | ⟨q, hq, rfl⟩)
        · exact Or.inl (List.mem_append_left _ h)
        · rcases List.mem_cons.mp hq with rfl | hq
          · exact Or.inl (List.mem_append_right _ (List.mem_singleton.mpr rfl))
          · exact Or.inr ⟨q, hq, rfl⟩

theorem scanPass_skip_all {acc : List (Int × Int)} {ps : List Int}
    (h : ∀ p ∈ ps, pairOf p ∈ acc) : scanPass acc ps = acc := by
  induction ps with
  | nil => rfl
  | cons p t ih =>
    rw [scanPass_cons, if_pos (h p (List.mem_cons_self p t))]
    exact ih fun q hq => h q (List.mem_cons_of_mem p hq)

theorem scanPass_all_new : ∀ {ps : List Int} {acc : List (Int × Int)},
    (ps.map pairOf).Nodup → (∀ p ∈ ps, pairOf p ∉ acc) →
    scanPass acc ps = acc ++ ps.map pairOf := by
  intro ps
  induction ps with
  | nil => intro acc _ _; simp [scanPass_nil]
  | cons p t ih =>
    intro acc hnd hnew
    rw [scanPass_cons, if_neg (hnew p (List.mem_cons_self p t))]
    rw [List.map_cons] at hnd
    rw [ih hnd.of_cons ?hnewt]
    · simp [List.map_cons]
    case hnewt =>
      intro q hq
      rw [List.mem_append]
      rintro (hin | hin)
      · exact hnew q (List.mem_cons_of_mem p hq) hin
      · have : pairOf q = pairOf p := List.mem_singleton.mp hin
        exact (List.nodup_cons.mp hnd).1 (this ▸ List.mem_map_of_mem pairOf hq)

theorem mem_found_positions {data : List Nat} {x : Int × Int} :
    x ∈ found_positions data ↔
      (∃ p : Nat, matchAt (bitStream data) preamble_bits p = true ∧ x = pairOf p) ∨
      (matchAt (false :: bitStream data) preamble_bits 0 = true ∧ x = pairOf (-1)) := by
  unfold found_positions
  rw [mem_scanPass, mem_scanPass]
  simp only [List.not_mem_nil, false_or, List.mem_map, mem_occList]
  constructor
  · rintro (⟨pi, ⟨p, ⟨hm, hlt⟩, rfl⟩, rfl⟩ | ⟨pi, ⟨q, ⟨hm, hlt⟩, rfl⟩, rfl⟩)
    · exact Or.inl ⟨p, hm, rfl⟩
    · cases q with
      | zero => exact Or.inr ⟨hm, by norm_num⟩
      | succ q' =>
        rw [matchAt_cons] at hm
        refine Or.inl ⟨q', hm, ?_⟩
        congr 1
        simp only [Int.ofNat_eq_natCast]
        push_cast
        ring
  · rintro (⟨p, hm, rfl⟩ | ⟨hm, rfl⟩)
    · left
      refine ⟨(p : Int), ⟨p, ⟨hm, ?_⟩, rfl⟩, rfl⟩
      have hb := matchAt_bound (by rw [preamble_bits_length]; omega) hm
      have hl := preamble_bits_length
      omega
    · right
      refine ⟨-1, ⟨0, ⟨hm, ?_⟩, ?_⟩, rfl⟩
      · simp
      · norm_num

theorem found_fst_ge {data : List Nat} {x : Int × Int}
    (h : x ∈ found_positions data) : -1 ≤ x.1 := by
  rcases mem_found_positions.mp h with ⟨p, _, rfl⟩ | ⟨_, rfl⟩
  · have : (0 : Int) ≤ ((p : Int)).fdiv 8 :=
      Int.fdiv_nonneg (Int.ofNat_nonneg p) (by norm_num)
    simp only [pairOf]
    omega
  · simp only [pairOf]
    decide

/-- C1: every bit position `p` at which the 32-bit preamble pattern occurs in
the bit stream of the file — overlapping occurrences and unaligned positions with
`p mod 8 ≠ 0` included — is recorded as the pair `(p div 8, p mod 8)` in
`found_positions`. -/
theorem claim1_every_occurrence_recorded (data : List Nat) (p : Nat)
    (h : matchAt (bitStream data) preamble_bits p = true) :
    (((p / 8 : Nat) : Int), ((p % 8 : Nat) : Int)) ∈ found_positions data := by
  rw [mem_found_positions]
  refine Or.inl ⟨p, h, ?_⟩
  exact congrArg₂ Prod.mk (Int.ofNat_fdiv p 8) (Int.ofNat_fmod p 8)

/-- Witness for C1: a file starting one zero bit before the preamble bytes
has an occurrence at bit position 1, recorded as `(0, 1)`. -/
theorem claim1_witness :
    matchAt (bitStream [0x0F, 0x35, 0x16, 0x24, 0x00]) preamble_bits 1 = true ∧
    (((1 / 8 : Nat) : Int), ((1 % 8 : Nat) : Int)) ∈
      found_positions [0x0F, 0x35, 0x16, 0x24, 0x00] :=
  ⟨by decide, claim1_every_occurrence_recorded [0x0F, 0x35, 0x16, 0x24, 0x00] 1 (by decide)⟩

theorem foldl_min_min (t : List Nat) :
    ∀ a b, t.foldl Nat.min (Nat.min a b) = Nat.min a (t.foldl Nat.min b) := by
  induction t with
  | nil => intro a b; rfl
  | cons c t ih =>
    intro a b
    show t.foldl Nat.min (Nat.min (Nat.min a b) c) = Nat.min a (t.foldl Nat.min (Nat.min b c))
    have hassoc : Nat.min (Nat.min a b) c = Nat.min a (Nat.min b c) := by
      simp only [Nat.min_def]
      split_ifs <;> omega
    rw [hassoc]
    exact ih a (Nat.min b c)

theorem minOpt_cons (a : Nat) (l : List Nat) :
    minOpt (a :: l) = combineMin (some a) (minOpt l) := by
  cases l with
  | nil => rfl
  | cons h t =>
    show some (t.foldl Nat.min (Nat.min a h)) = some (Nat.min a (t.foldl Nat.min h))
    rw [foldl_min_min]

theorem combineMin_assoc (x y z : Option Nat) :
    combineMin (combineMin x y) z = combineMin x (combineMin y z) := by
  cases x <;> cases y <;> cases z
  all_goals simp [combineMin, Nat.min_def]
  all_goals split_ifs <;> omega

theorem minOpt_append (l₁ l₂ : List Nat) :
    minOpt (l₁ ++ l₂) = combineMin (minOpt l₁) (minOpt l₂) := by
  induction l₁ with
  | nil => cases l₂ <;> rfl
  | cons a t ih =>
    rw [List.cons_append, minOpt_cons, ih, minOpt_cons, combineMin_assoc]

theorem min_union_aux (data : List Nat) (f : Nat) (ps : List (Int × Int)) :
    minOpt ((ps.filterMap (contribAt data)).filterMap
      (fun c => if c.1 = some f then some c.2 else none)) =
    minOpt (ps.flatMap (fun x =>
      if fieldValue data x.1 1 = some f ∧ pySlice data (x.1 + 52).toNat 512 ≠ []
      then pySlice data (x.1 + 52).toNat 512 else [])) := by
  induction ps with
  | nil => rfl
  | cons x t ih =>
    rw [List.flatMap_cons]
    rcases hpx : pySlice data (x.1 + 52).toNat 512 with _ | ⟨h, t'⟩
    · have hc : contribAt data x = none := by simp [contribAt, hpx]
      rw [List.filterMap_cons_none hc, if_neg (by simp), List.nil_append]
      exact ih
    · have hc : contribAt data x = some (fieldValue data x.1 1, t'.foldl Nat.min h) := by
        simp [contribAt, hpx]
      rw [List.filterMap_cons_some hc]
      by_cases hf : fieldValue data x.1 1 = some f
      · rw [List.filterMap_cons_some (show _ = some (t'.foldl Nat.min h) by simp [hf]),
          minOpt_cons, ih, if_pos (by simp [hf]), minOpt_append]
        rfl
      · rw [List.filterMap_cons_none (by simp [hf]), ih, if_neg (by simp [hf]),
          List.nil_append]

/-- C3: the reported per-frame minimum `frame_mins[f]` is the minimum byte
value over the union of the payload slices `data[b+52 : b+564]` of all
detected preamble occurrences whose decoded `frame_num` equals `f` and whose
payload slice is non-empty (`none` on both sides when `f` does not appear in
the report). -/
theorem claim3_frame_min_union (data : List Nat) (f : Nat) :
    frameMin data f = minOpt (specFramePixelUnion data f) :=
  min_union_aux data f (found_positions data)

/-- C6: a non-empty payload slice `data[b+52 : b+564]` guarantees that the
`frame_num` header word was fully present in the file, so the dictionary
lookup of `frame_num` in `values` performed for such an occurrence never fails
(occurrences with an empty payload slice are skipped and contribute
nothing). -/
theorem claim6_payload_guards_lookup (data : List Nat) (bp bo : Int)
    (hmem : (bp, bo) ∈ found_positions data)
    (hne : pySlice data (bp + 52).toNat 512 ≠ []) :
    (fieldValue data bp 1).isSome = true := by
  have hbp : -1 ≤ (bp, bo).1 := found_fst_ge hmem
  simp only at hbp
  have hlen : (bp + 52).toNat < data.length := by
    by_contra hcon
    push_neg at hcon
    exact hne (by
      unfold pySlice
      rw [List.drop_eq_nil_iff.mpr hcon, List.take_nil])
  have hw : ((((pySlice data (bp + 4).toNat 48).map reverse_bits).drop (4 * 1)).take 4).length
      = 4 := by
    simp only [pySlice, List.length_take, List.length_drop, List.length_map]
    omega
  unfold fieldValue
  simp [hw]

set_option maxRecDepth 100000 in
/-- Witness for C6: a 53-byte file whose payload slice holds one byte. -/
theorem claim6_witness :
    ((0 : Int), (0 : Int)) ∈
      found_positions ([0x1E, 0x6A, 0x2C, 0x48] ++ List.replicate 49 0) ∧
    pySlice ([0x1E, 0x6A, 0x2C, 0x48] ++ List.replicate 49 0) ((0 : Int) + 52).toNat 512 ≠ [] ∧
    (fieldValue ([0x1E, 0x6A, 0x2C, 0x48] ++ List.replicate 49 0) 0 1).isSome = true :=
  ⟨by decide, by decide,
   claim6_payload_guards_lookup ([0x1E, 0x6A, 0x2C, 0x48] ++ List.replicate 49 0) 0 0
     (by decide) (by decide)⟩

/-- C2: for every recorded occurrence at byte position `b` whose four header
bytes `data[b+4+4*idx : b+8+4*idx]` all exist, the header field of index
`idx` decodes as the little-endian 32-bit integer formed from the per-byte
bit-reversal of those bytes. -/
theorem claim2_header_field_decode (data : List Nat) (bp bo : Int) (idx : Nat)
    (b0 b1 b2 b3 : Nat)
    (_hmem : (bp, bo) ∈ found_positions data) (hidx : idx < 12)
    (hb : pySlice data ((bp + 4).toNat + 4 * idx) 4 = [b0, b1, b2, b3]) :
    fieldValue data bp idx =
      some (reverse_bits b0 * 256 ^ 0 + reverse_bits b1 * 256 ^ 1 +
            reverse_bits b2 * 256 ^ 2 + reverse_bits b3 * 256 ^ 3) := by
  have hmin : (4 : Nat) ⊓ (48 - 4 * idx) = 4 := by omega
  have hb' : (data.drop ((bp + 4).toNat + 4 * idx)).take 4 = [b0, b1, b2, b3] := hb
  have hword : (((pySlice data (bp + 4).toNat 48).map reverse_bits).drop (4 * idx)).take 4
      = [reverse_bits b0, reverse_bits b1, reverse_bits b2, reverse_bits b3] := by
    unfold pySlice
    rw [← List.map_drop, ← List.map_take, List.drop_take, List.take_take, hmin,
      List.drop_drop, hb']
    rfl
  rw [show fieldValue data bp idx =
      (if ((((pySlice data (bp + 4).toNat 48).map reverse_bits).drop (4 * idx)).take 4).length = 4
       then some (wordLE ((((pySlice data (bp + 4).toNat 48).map reverse_bits).drop
         (4 * idx)).take 4))
       else none) from rfl]
  rw [hword]
  show some (wordLE [reverse_bits b0, reverse_bits b1, reverse_bits b2, reverse_bits b3]) = _
  unfold wordLE
  congr 1
  simp only [List.foldr]
  ring

/-- Witness for C2: file `1E 6A 2C 48 01 02 03 04`, occurrence at `(0, 0)`,
field index 0 (`linked_list`), header bytes `01 02 03 04`. -/
theorem claim2_witness :
    ((0 : Int), (0 : Int)) ∈ found_positions [0x1E, 0x6A, 0x2C, 0x48, 1, 2, 3, 4] ∧
    (0 : Nat) < 12 ∧
    pySlice [0x1E, 0x6A, 0x2C, 0x48, 1, 2, 3, 4] (((0 : Int) + 4).toNat + 4 * 0) 4
      = [1, 2, 3, 4] ∧
    fieldValue [0x1E, 0x6A, 0x2C, 0x48, 1, 2, 3, 4] 0 0 =
      some (reverse_bits 1 * 256 ^ 0 + reverse_bits 2 * 256 ^ 1 +
            reverse_bits 3 * 256 ^ 2 + reverse_bits 4 * 256 ^ 3) :=
  ⟨by decide, by decide, by decide,
   claim2_header_field_decode [0x1E, 0x6A, 0x2C, 0x48, 1, 2, 3, 4] 0 0 0 1 2 3 4
     (by decide) (by decide) (by decide)⟩

/-- C8: when no preamble occurrence has a non-empty payload slice (for
example a file not containing the pattern at all), no frame is decoded, the
sorted frame list is empty, and indexing its first element fails — the
report completes only when at least one frame was decoded. -/
theorem claim8_empty_frames_fails (data : List Nat)
    (h : ∀ x ∈ found_positions data, pySlice data (x.1 + 52).toNat 512 = []) :
    (frames data).head? = none := by
  have hcontribs : contribs data = [] := by
    unfold contribs
    rw [List.filterMap_eq_nil_iff]
    intro x hx
    simp [contribAt, h x hx]
  unfold frames frameKeys
  rw [hcontribs]
  rfl

/-- Witness for C8: the one-byte file `00` contains no preamble. -/
theorem claim8_witness :
    (∀ x ∈ found_positions [0], pySlice [0] (x.1 + 52).toNat 512 = []) ∧
    (frames [0]).head? = none :=
  ⟨by decide, claim8_empty_frames_fails [0] (by decide)⟩

theorem frames_sorted (data : List Nat) : (frames data).Sorted (· < ·) := by
  have hs : (frames data).Sorted (· ≤ ·) := List.sorted_insertionSort _ _
  have hnd : (frames data).Nodup :=
    ((List.perm_insertionSort (· ≤ ·) (frameKeys data)).symm).nodup (List.nodup_dedup _)
  exact hs.lt_of_le hnd

theorem mem_frames {data : List Nat} {f : Nat} :
    f ∈ frames data ↔ ∃ c ∈ contribs data, c.1 = some f := by
  unfold frames frameKeys
  rw [(List.perm_insertionSort _ _).mem_iff, List.mem_dedup, List.mem_filterMap]

theorem frameMin_isSome_of_mem {data : List Nat} {f : Nat}
    (h : ∃ c ∈ contribs data, c.1 = some f) : (frameMin data f).isSome = true := by
  obtain ⟨c, hc, hc1⟩ := h
  have hmem : c.2 ∈ (contribs data).filterMap
      (fun c => if c.1 = some f then some c.2 else none) :=
    List.mem_filterMap.mpr ⟨c, hc, by simp [hc1]⟩
  unfold frameMin
  rcases hl : (contribs data).filterMap (fun c => if c.1 = some f then some c.2 else none)
    with _ | ⟨a, t⟩
  · rw [hl] at hmem
    simp at hmem
  · rw [hl]
    rfl

/-- C7: the sequence of pairs handed to the plot (and the first/last frame
report) lists exactly the distinct decoded frame numbers in strictly
increasing order, each paired with its per-frame minimum pixel value. -/
theorem claim7_plot_pairs (data : List Nat) :
    List.Sorted (· < ·) ((plotPairs data).map Prod.fst) ∧
    (∀ f : Nat, f ∈ (plotPairs data).map Prod.fst ↔ ∃ c ∈ contribs data, c.1 = some f) ∧
    ∀ p ∈ plotPairs data, frameMin data p.1 = some p.2 := by
  have hfst : (plotPairs data).map Prod.fst = frames data := by
    unfold plotPairs
    rw [List.map_map]
    exact List.map_id (frames data)
  refine ⟨?_, ?_, ?_⟩
  · rw [hfst]
    exact frames_sorted data
  · intro f
    rw [hfst]
    exact mem_frames
  · intro p hp
    unfold plotPairs at hp
    obtain ⟨f, hf, rfl⟩ := List.mem_map.mp hp
    have hsome : (frameMin data f).isSome = true :=
      frameMin_isSome_of_mem (mem_frames.mp hf)
    obtain ⟨m, hm⟩ := Option.isSome_iff_exists.mp hsome
    simp only
    rw [hm]
    rfl

theorem pairwise_zip_tail {r : Nat → Nat → Prop} :
    ∀ {l : List Nat}, l.Pairwise r → ∀ x ∈ l.zip l.tail, r x.1 x.2 := by
  intro l
  induction l with
  | nil =>
    intro _ x hx
    simp at hx
  | cons a t ih =>
    intro hp x hx
    cases t with
    | nil => simp at hx
    | cons b t' =>
      rw [List.tail_cons, List.zip_cons_cons] at hx
      rcases List.mem_cons.mp hx with rfl | hx'
      · exact (List.pairwise_cons.mp hp).1 b (List.mem_cons_self b t')
      · exact ih (List.pairwise_cons.mp hp).2 x hx'

/-- C5: a gap `(start, end, size)` is reported iff `start` and `end` are
adjacent in the sorted list of distinct decoded frame numbers with
`size = end - start > 1`; the "no gaps" message is printed iff every
adjacent pair of that list differs by exactly 1. -/
theorem claim5_gaps (data : List Nat) :
    (∀ s e : Nat, ∀ sz : Int, (s, e, sz) ∈ gapsOf (frames data) ↔
      ((s, e) ∈ (frames data).zip (frames data).tail ∧ sz = (e : Int) - (s : Int) ∧
        1 < (e : Int) - (s : Int))) ∧
    (gapsOf (frames data) = [] ↔
      ∀ x ∈ (frames data).zip (frames data).tail, ((x.2 : Int) - (x.1 : Int) = 1)) := by
  constructor
  · intro s e sz
    unfold gapsOf
    rw [List.mem_filterMap]
    constructor
    · rintro ⟨⟨a, b⟩, hab, hsel⟩
      simp only at hsel
      split_ifs at hsel with hd
      simp only [Option.some.injEq, Prod.mk.injEq] at hsel
      obtain ⟨rfl, rfl, rfl⟩ := hsel
      exact ⟨hab, rfl, hd⟩
    · rintro ⟨hmem, rfl, hd⟩
      exact ⟨(s, e), hmem, by simp [hd]⟩
  · constructor
    · intro hnil x hx
      have hle : ¬ (1 : Int) < (x.2 : Int) - (x.1 : Int) := by
        intro hd
        have hnone := List.filterMap_eq_nil_iff.mp hnil x hx
        simp only at hnone
        rw [if_pos hd] at hnone
        exact absurd hnone (by simp)
      have hlt : x.1 < x.2 :=
        pairwise_zip_tail (frames_sorted data) x hx
      omega
    · intro hall
      unfold gapsOf
      rw [List.filterMap_eq_nil_iff]
      intro x hx
      have hx1 := hall x hx
      simp [hx1]

theorem offset_occ_mem_first_pass {data : List Nat} {q : Nat}
    (hq : q ∈ occList (false :: bitStream data) preamble_bits) (h1 : 1 ≤ q) :
    pairOf (Int.ofNat q - 1) ∈
      scanPass [] ((occList (bitStream data) preamble_bits).map Int.ofNat) := by
  obtain ⟨hm, hlt⟩ := mem_occList.mp hq
  obtain ⟨q', rfl⟩ : ∃ q', q = q' + 1 := ⟨q - 1, by omega⟩
  rw [matchAt_cons] at hm
  have hb := matchAt_bound (by rw [preamble_bits_length]; omega) hm
  have hlen := preamble_bits_length
  have hq' : q' ∈ occList (bitStream data) preamble_bits :=
    mem_occList.mpr ⟨hm, by omega⟩
  have hcast : Int.ofNat (q' + 1) - 1 = Int.ofNat q' := by
    simp only [Int.ofNat_eq_natCast]
    push_cast
    ring
  rw [mem_scanPass]
  exact Or.inr ⟨Int.ofNat q', List.mem_map_of_mem Int.ofNat hq',
    congrArg pairOf hcast.symm⟩

/-- C4 amended: `found_positions` never records a position twice, and its
length is the number of distinct bit positions at which the pattern occurs
in the original bit stream, plus one extra entry `(-1, 7)` exactly when the
offset-by-one stream matches at its position 0 (i.e. when the first 31 bits
of the file equal the last 31 bits of the pattern). -/
theorem claim4_amended (data : List Nat) :
    (found_positions data).Nodup ∧
    (found_positions data).length =
      (occList (bitStream data) preamble_bits).length +
        (if matchAt (false :: bitStream data) preamble_bits 0 = true then 1 else 0) := by
  have hnodup1 :
      (((occList (bitStream data) preamble_bits).map Int.ofNat).map pairOf).Nodup := by
    refine List.Nodup.map (fun p q h => pairOf_inj h) ?_
    exact List.Nodup.map (fun a b h => Int.ofNat.inj h)
      (List.Nodup.filter _ (List.nodup_range _))
  have hacc : scanPass [] ((occList (bitStream data) preamble_bits).map Int.ofNat)
      = ((occList (bitStream data) preamble_bits).map Int.ofNat).map pairOf :=
    (scanPass_all_new hnodup1 (fun p _ hmem => List.not_mem_nil _ hmem)).trans
      (List.nil_append _)
  have hfst : ∀ y ∈ scanPass [] ((occList (bitStream data) preamble_bits).map Int.ofNat),
      0 ≤ y.1 := by
    intro y hy
    rw [hacc, List.mem_map] at hy
    obtain ⟨pi, hpi, rfl⟩ := hy
    rw [List.mem_map] at hpi
    obtain ⟨p, _, rfl⟩ := hpi
    exact Int.fdiv_nonneg (Int.ofNat_nonneg p) (by norm_num)
  have hacclen : (scanPass [] ((occList (bitStream data) preamble_bits).map Int.ofNat)).length
      = (occList (bitStream data) preamble_bits).length := by
    rw [hacc, List.length_map, List.length_map]
  by_cases h0 : matchAt (false :: bitStream data) preamble_bits 0 = true
  · -- the offset stream matches at position 0: one extra record (-1, 7)
    have hocc0 : occList (false :: bitStream data) preamble_bits =
        0 :: ((List.range (bitStream data).length).map Nat.succ).filter
          (fun q => matchAt (false :: bitStream data) preamble_bits q) := by
      unfold occList
      rw [show (false :: bitStream data).length = (bitStream data).length + 1 from rfl,
        List.range_succ_eq_map, List.filter_cons_of_pos h0]
    have hnotmem : pairOf (Int.ofNat 0 - 1) ∉
        scanPass [] ((occList (bitStream data) preamble_bits).map Int.ofNat) := by
      intro hcon
      have hge := hfst _ hcon
      have hval : (pairOf (Int.ofNat 0 - 1)).1 = -1 := by decide
      rw [hval] at hge
      exact absurd hge (by norm_num)
    have hfound : found_positions data =
        scanPass [] ((occList (bitStream data) preamble_bits).map Int.ofNat)
          ++ [pairOf (Int.ofNat 0 - 1)] := by
      unfold found_positions
      rw [hocc0, List.map_cons, scanPass_cons, if_neg hnotmem]
      apply scanPass_skip_all
      intro pi hpi
      rw [List.mem_map] at hpi
      obtain ⟨q, hq, rfl⟩ := hpi
      have hq1 : q ∈ occList (false :: bitStream data) preamble_bits := by
        rw [hocc0]
        exact List.mem_cons_of_mem _ hq
      have h1 : 1 ≤ q := by
        obtain ⟨hq2, _⟩ := List.mem_filter.mp hq
        obtain ⟨q'', _, rfl⟩ := List.mem_map.mp hq2
        omega
      exact List.mem_append_left _ (offset_occ_mem_first_pass hq1 h1)
    constructor
    · rw [hfound]
      refine List.Nodup.append (hacc ▸ hnodup1) (List.nodup_singleton _) ?_
      intro x hx hx1
      rw [List.mem_singleton] at hx1
      subst hx1
      exact hnotmem hx
    · rw [hfound, List.length_append, hacclen, if_pos h0]
      rfl
  · -- no match at position 0 of the offset stream: the second scan adds nothing
    have hfound : found_positions data =
        scanPass [] ((occList (bitStream data) preamble_bits).map Int.ofNat) := by
      unfold found_positions
      apply scanPass_skip_all
      intro pi hpi
      rw [List.mem_map] at hpi
      obtain ⟨q, hq, rfl⟩ := hpi
      have h1 : 1 ≤ q := by
        rcases Nat.eq_zero_or_pos q with rfl | h
        · exact absurd (mem_occList.mp hq).1 h0
        · exact h
      exact offset_occ_mem_first_pass hq h1
    constructor
    · rw [hfound, hacc]
      exact hnodup1
    · rw [hfound, hacclen, if_neg h0, Nat.add_zero]

set_option maxRecDepth 10000 in
/-- C9: for every byte value `b`, `reverse_bits b` is a byte value whose bit
`i` is bit `7 - i` of `b`, and `reverse_bits` is an involution on bytes. -/
theorem claim9_reverse_bits : ∀ b : Nat, b < 256 →
    reverse_bits b < 256 ∧
    (∀ i : Nat, i < 8 → (reverse_bits b).testBit i = b.testBit (7 - i)) ∧
    reverse_bits (reverse_bits b) = b := by decide

/-- Witness for C9 at the concrete byte 3. -/
theorem claim9_witness : 3 < 256 ∧
    (reverse_bits 3 < 256 ∧
     (∀ i : Nat, i < 8 → (reverse_bits 3).testBit i = Nat.testBit 3 (7 - i)) ∧
     reverse_bits (reverse_bits 3) = 3) :=
  ⟨by decide, claim9_reverse_bits 3 (by decide)⟩

/-- C10: the 32-bit preamble searched by `find_preamble_and_analyze_pixels`
(bit string for bytes `1E 6A 2C 48`) is the fourth transform of
`reverse_32bit_word` (bytes reversed, then bits reversed within each byte)
applied to the bytes `12 34 56 78` used as preamble in `analyze_blocks`. -/
theorem claim10_preamble_transform :
    (reverse_32bit_word [0x12, 0x34, 0x56, 0x78]).getD 3 [] = [0x1E, 0x6A, 0x2C, 0x48] ∧
    bitStream [0x1E, 0x6A, 0x2C, 0x48] = preamble_bits := by decide

/-- Counterexample to C4 as stated: on the four bytes `3C D4 58 90` (whose
first 31 bits are the last 31 bits of the preamble pattern) the pattern never
occurs in the original bit stream, yet the offset-by-one scan matches at
position 0 of the offset stream and records `(-1, 7)`, so
`len(found_positions) = 1 ≠ 0`. -/
theorem claim4_counterexample :
    found_positions [0x3C, 0xD4, 0x58, 0x90] = [(-1, 7)] ∧
    occList (bitStream [0x3C, 0xD4, 0x58, 0x90]) preamble_bits = [] ∧
    (found_positions [0x3C, 0xD4, 0x58, 0x90]).length ≠
      (occList (bitStream [0x3C, 0xD4, 0x58, 0x90]) preamble_bits).length := by decide
